import Mathlib

/-!
Shallow embedding of `main.py` of the terminal raytracer, together with
theorems settling the specification claims about it.

Modelling conventions:
* Python floats are modelled by exact rationals (`ℚ`); `int(q)` (truncation
  toward zero) is `pyTrunc`.
* The transcendental library functions (`math.cos`, `math.sin`, `math.tan`,
  `math.sqrt`, `math.pi`, and the two `math.floor(... / math.pi)` scan-direction
  computations) are abstracted into a `MathModel` parameter, since the claims
  under scrutiny are about the surrounding program logic, not about the values
  of the trigonometric functions.
* Python exceptions (`ZeroDivisionError` from float division by zero, and the
  `SystemExit` raised by `exit(0)` on the `q` key) are modelled with `Except`.
-/

namespace TermRay

/-- The fixed game map of `main.py` (`self.MAP`): eight rows, each a 16-bit
wall bitfield. -/
def MAP : List Nat := [
  0b1111111111111111,
  0b1010001000000001,
  0b1010011000011001,
  0b1000000000011001,
  0b1000011111000011,
  0b1100001100000111,
  0b1100000000001011,
  0b1111111111111111
]

/-- Python `int(q)` on a float: truncation toward zero. -/
def pyTrunc (q : ℚ) : ℤ := if q < 0 then q.ceil else q.floor

/-- Python list indexing `MAP[i]`: indices in `[0, 8)` read directly, negative
indices in `[-8, 0)` wrap to the end of the list, anything else raises
`IndexError` (modelled as `none`). -/
def mapAt (i : ℤ) : Option Nat :=
  if 0 ≤ i ∧ i < (MAP.length : ℤ) then some (MAP.getD i.toNat 0)
  else if -(MAP.length : ℤ) ≤ i ∧ i < 0 then some (MAP.getD (i + MAP.length).toNat 0)
  else none

/-- `Game.point_in_wall(x, y)` from `main.py`: look up row `int(y)`, test the
bit selected by the mask `1 << abs(int(x) - 1)`; an `IndexError` on the row
lookup yields `True`. -/
def point_in_wall (x y : ℚ) : Bool :=
  match mapAt (pyTrunc y) with
  | some line => decide (line &&& (1 <<< (pyTrunc x - 1).natAbs) ≠ 0)
  | none => true

/-- Masking with a shifted one is the same as testing the corresponding bit. -/
theorem land_shift_ne_zero (n k : Nat) :
    decide (n &&& (1 <<< k) ≠ 0) = n.testBit k := by
  rw [Nat.one_shiftLeft, Nat.and_two_pow]
  cases h : n.testBit k
  · simp
  · simpa using pow_ne_zero k (by norm_num : (2 : ℕ) ≠ 0)

theorem map_length_eq : (MAP.length : ℤ) = 8 := by rfl

/-- C1 counterexample: the claim fails at two concrete inputs.  At
`(x, y) = (3, -2)` the truncated row index `-2` is negative, yet
`point_in_wall` returns `false` (Python negative indexing reads row 6 and bit
`abs(3-1) = 2` of that row is clear).  At `(x, y) = (1/2, 3/2)` the truncated
cell is column 0 of row 1; under the claim's "leftmost bit = leftmost column"
convention that cell is a wall bit (bit 15 of row 1 is set), yet
`point_in_wall` returns `false` (it tests bit `abs(0-1) = 1`, which is clear). -/
theorem point_in_wall_claim_fails :
    pyTrunc (-2 : ℚ) = -2 ∧ point_in_wall 3 (-2) = false ∧
    pyTrunc (1/2 : ℚ) = 0 ∧ pyTrunc (3/2 : ℚ) = 1 ∧
    Nat.testBit (MAP.getD 1 0) 15 = true ∧ point_in_wall (1/2) (3/2) = false :=
  ⟨by with_unfolding_all rfl, by with_unfolding_all rfl, by with_unfolding_all rfl,
   by with_unfolding_all rfl, by with_unfolding_all rfl, by with_unfolding_all rfl⟩

/-- C1 (amended): full characterisation of `point_in_wall`.  The coordinates
are truncated toward zero; row indices in `[-8, 8)` select row
`int(y) mod 8` (negative indices wrap, Python list semantics) and the result
is bit `abs(int(x) - 1)` of that row's value, counted from the
least-significant bit; row indices outside `[-8, 8)` give `true`. -/
theorem point_in_wall_characterisation (x y : ℚ) :
    point_in_wall x y =
      if -8 ≤ pyTrunc y ∧ pyTrunc y < 8 then
        Nat.testBit (MAP.getD ((pyTrunc y).emod 8).toNat 0) ((pyTrunc x - 1).natAbs)
      else true := by
  unfold point_in_wall mapAt
  rw [map_length_eq]
  by_cases h1 : 0 ≤ pyTrunc y ∧ pyTrunc y < 8
  · have hmod : (pyTrunc y).emod 8 = pyTrunc y := Int.emod_eq_of_lt h1.1 h1.2
    rw [if_pos h1, if_pos (show -8 ≤ pyTrunc y ∧ pyTrunc y < 8 from ⟨by omega, h1.2⟩),
      hmod]
    exact land_shift_ne_zero _ _
  · by_cases h2 : -8 ≤ pyTrunc y ∧ pyTrunc y < 0
    · have hmod : (pyTrunc y).emod 8 = pyTrunc y + 8 := by
        have h8 : (pyTrunc y + 1 * 8).emod 8 = (pyTrunc y).emod 8 := Int.add_mul_emod_self
        rw [one_mul] at h8
        have h9 : (pyTrunc y + 8).emod 8 = pyTrunc y + 8 :=
          Int.emod_eq_of_lt (by omega) (by omega)
        omega
      rw [if_neg (by omega), if_pos h2,
        if_pos (show -8 ≤ pyTrunc y ∧ pyTrunc y < 8 from ⟨h2.1, by omega⟩), hmod]
      exact land_shift_ne_zero _ _
    · rw [if_neg (by omega), if_neg (by omega), if_neg (by omega)]

/-- C9: the occupancy lookup depends on `x` only through `abs(int(x) - 1)`;
in particular, for a row index inside the map, coordinates truncating to
column 0 and to column 2 always give the same answer. -/
theorem point_in_wall_column_alias (x1 x2 y : ℚ)
    (h1 : pyTrunc x1 = 0) (h2 : pyTrunc x2 = 2)
    (hy0 : 0 ≤ pyTrunc y) (hy8 : pyTrunc y < 8) :
    point_in_wall x1 y = point_in_wall x2 y := by
  unfold point_in_wall
  rw [h1, h2, show ((0 : ℤ) - 1).natAbs = 1 by decide,
    show ((2 : ℤ) - 1).natAbs = 1 by decide]

/-- Witness for C9 at `x1 = 1/2`, `x2 = 5/2`, `y = 3`. -/
theorem point_in_wall_column_alias_witness :
    point_in_wall (1/2) 3 = point_in_wall (5/2) 3 :=
  point_in_wall_column_alias (1/2) (5/2) 3
    (by with_unfolding_all rfl) (by with_unfolding_all rfl)
    (of_decide_eq_true (by with_unfolding_all rfl))
    (of_decide_eq_true (by with_unfolding_all rfl))

/-! ## Player state and the movement part of `Game.update` -/

/-- Abstract model of the float math library functions used by `main.py`.
The program logic under verification does not depend on the numeric values of
the trigonometric functions, so they are parameters. -/
structure MathModel where
  pi : ℚ
  cos : ℚ → ℚ
  sin : ℚ → ℚ
  tan : ℚ → ℚ
  sqrt : ℚ → ℚ
  /-- models `math.floor(angle / math.pi)` -/
  floorDivPi : ℚ → ℤ
  /-- models `math.floor((angle - math.pi / 2) / math.pi)` -/
  floorShiftDivPi : ℚ → ℤ

/-- The player fields of the `Game` object. -/
structure PState where
  player_x : ℚ
  player_y : ℚ
  player_angle : ℚ
deriving DecidableEq

/-- `self.STEP_SIZE = 0.08`. -/
def STEP_SIZE : ℚ := 8 / 100

/-- The `w`/`s`/`a`/`d` key dispatch of `Game.update`, before the collision
check (the `q` branch raises `SystemExit` and never reaches this code; any
other key falls through leaving the state unchanged). -/
def dispatch (m : MathModel) (key : Char) (s : PState) : PState :=
  if key = 'w' then
    { s with player_x := s.player_x + m.cos s.player_angle * STEP_SIZE,
             player_y := s.player_y + -m.sin s.player_angle * STEP_SIZE }
  else if key = 's' then
    { s with player_x := s.player_x - m.cos s.player_angle * STEP_SIZE,
             player_y := s.player_y - -m.sin s.player_angle * STEP_SIZE }
  else if key = 'd' then
    { s with player_angle := s.player_angle - STEP_SIZE }
  else if key = 'a' then
    { s with player_angle := s.player_angle + STEP_SIZE }
  else s

/-- The movement part of `Game.update` for a non-`q` key: dispatch on the key,
then roll the position (and only the position: `previous_position` stores
`(player_x, player_y)`) back if the new position is in a wall. -/
def movePlayer (m : MathModel) (key : Char) (s : PState) : PState :=
  let s1 := dispatch m key s
  if point_in_wall s1.player_x s1.player_y then
    { s1 with player_x := s.player_x, player_y := s.player_y }
  else s1

/-- C6: the four movement commands.  `w` adds the forward vector
`(cos(angle)·STEP_SIZE, -sin(angle)·STEP_SIZE)` to the position and `s`
subtracts the same vector, both subject to positional rollback; `a` adds
`STEP_SIZE` to the angle and `d` subtracts it, with the position left exactly
where it was and the angle change never rolled back. -/
theorem movement_commands (m : MathModel) (s : PState) :
    (movePlayer m 'w' s =
      (let tx := s.player_x + m.cos s.player_angle * STEP_SIZE
       let ty := s.player_y + -m.sin s.player_angle * STEP_SIZE
       if point_in_wall tx ty then s else ⟨tx, ty, s.player_angle⟩)) ∧
    (movePlayer m 's' s =
      (let tx := s.player_x - m.cos s.player_angle * STEP_SIZE
       let ty := s.player_y - -m.sin s.player_angle * STEP_SIZE
       if point_in_wall tx ty then s else ⟨tx, ty, s.player_angle⟩)) ∧
    movePlayer m 'a' s = ⟨s.player_x, s.player_y, s.player_angle + STEP_SIZE⟩ ∧
    movePlayer m 'd' s = ⟨s.player_x, s.player_y, s.player_angle - STEP_SIZE⟩ := by
  obtain ⟨x, y, a⟩ := s
  refine ⟨?_, ?_, ?_, ?_⟩ <;>
    simp [movePlayer, dispatch] <;> split <;> simp_all

/-- Helper: one movement step never commits a position inside a wall if the
previous position was free. -/
theorem movePlayer_no_wall (m : MathModel) (key : Char) (s : PState)
    (hs : point_in_wall s.player_x s.player_y = false) :
    point_in_wall (movePlayer m key s).player_x (movePlayer m key s).player_y = false := by
  unfold movePlayer
  rcases h : point_in_wall (dispatch m key s).player_x (dispatch m key s).player_y with _ | _
  · simpa [h] using h
  · simpa [h] using hs

/-! ## The screen compositor `Game.draw_line` -/

/-- The Python row update `row[:x] + c + row[x + 1:]`. -/
def rowWrite (x : ℕ) (c : Char) (row : List Char) : List Char :=
  row.take x ++ [c] ++ row.drop (x + 1)

/-- The `for num, row in enumerate(self.screen)` loop of `Game.draw_line`:
rows whose index lies in `range(offset + 1, VH - offset)` get a wall glyph at
column `x` (`'#'` if not shadowed, `'+'` if shadowed), all others a blank. -/
def drawRows (VH : ℕ) (offset : ℤ) (x : ℕ) (shadow : Bool) :
    ℕ → List (List Char) → List (List Char)
  | _, [] => []
  | num, row :: rest =>
      (if offset + 1 ≤ (num : ℤ) ∧ (num : ℤ) < (VH : ℤ) - offset
       then rowWrite x (if shadow then '+' else '#') row
       else rowWrite x ' ' row) :: drawRows VH offset x shadow (num + 1) rest

/-- `Game.draw_line(x, height, shadow)`: `offset = floor((VH - height) / 2)`,
then rebuild every row, writing only column `x`. -/
def draw_line (VH : ℕ) (x : ℕ) (height : ℤ) (shadow : Bool)
    (screen : List (List Char)) : List (List Char) :=
  drawRows VH (((VH : ℤ) - height).fdiv 2) x shadow 0 screen

theorem rowWrite_eq_set (c : Char) :
    ∀ (row : List Char) (x : ℕ), x < row.length → rowWrite x c row = row.set x c := by
  intro row x hx
  rw [rowWrite, List.set_eq_take_cons_drop c hx]
  simp

theorem rowWrite_length (c : Char) (row : List Char) (x : ℕ) (hx : x < row.length) :
    (rowWrite x c row).length = row.length := by
  rw [rowWrite_eq_set c row x hx, List.length_set]

theorem rowWrite_getD_self (c : Char) (row : List Char) (x : ℕ) (d : Char)
    (hx : x < row.length) : (rowWrite x c row).getD x d = c := by
  rw [rowWrite_eq_set c row x hx, List.getD_eq_getElem?_getD,
    List.getElem?_set_eq_of_lt c hx]
  rfl

theorem rowWrite_getD_ne (c : Char) (row : List Char) (x j : ℕ) (d : Char)
    (hx : x < row.length) (hj : j ≠ x) :
    (rowWrite x c row).getD j d = row.getD j d := by
  rw [rowWrite_eq_set c row x hx, List.getD_eq_getElem?_getD,
    List.getElem?_set_ne (Ne.symm hj), List.getD_eq_getElem?_getD]

theorem drawRows_length (VH : ℕ) (offset : ℤ) (x : ℕ) (shadow : Bool) :
    ∀ (screen : List (List Char)) (num : ℕ),
      (drawRows VH offset x shadow num screen).length = screen.length := by
  intro screen
  induction screen with
  | nil => intro num; rfl
  | cons row rest ih => intro num; simp [drawRows, ih]

/-- The row of index `i` (relative to the start index `num`) of the rebuilt
screen. -/
theorem drawRows_getD (VH : ℕ) (offset : ℤ) (x : ℕ) (shadow : Bool) :
    ∀ (screen : List (List Char)) (num i : ℕ), i < screen.length →
      (drawRows VH offset x shadow num screen).getD i [] =
        (if offset + 1 ≤ ((num + i : ℕ) : ℤ) ∧ ((num + i : ℕ) : ℤ) < (VH : ℤ) - offset
         then rowWrite x (if shadow then '+' else '#') (screen.getD i [])
         else rowWrite x ' ' (screen.getD i [])) := by
  intro screen
  induction screen with
  | nil => intro num i hi; simp at hi
  | cons row rest ih =>
      intro num i hi
      cases i with
      | zero => simp [drawRows]
      | succ n =>
          have hn : n < rest.length := by simpa using hi
          have := ih (num + 1) n hn
          simp only [drawRows, List.getD_cons_succ]
          rw [this]
          have harith : ((num + 1 + n : ℕ) : ℤ) = ((num + (n + 1) : ℕ) : ℤ) := by
            push_cast; ring
          rw [harith]

/-- Helper: the character written by `draw_line` at column `x` of row `num`. -/
theorem draw_line_column_aux (VH : ℕ) (x : ℕ) (height : ℤ) (shadow : Bool)
    (screen : List (List Char)) (num : ℕ)
    (hnum : num < screen.length) (hx : x < (screen.getD num []).length) :
    ((draw_line VH x height shadow screen).getD num []).getD x ' ' =
      (if ((VH : ℤ) - height).fdiv 2 < (num : ℤ) ∧
          (num : ℤ) < (VH : ℤ) - ((VH : ℤ) - height).fdiv 2
       then (if shadow then '+' else '#') else ' ') := by
  unfold draw_line
  rw [drawRows_getD VH _ x shadow screen 0 num hnum]
  have hz : ((0 + num : ℕ) : ℤ) = (num : ℤ) := by push_cast; ring
  rw [hz]
  by_cases h : ((VH : ℤ) - height).fdiv 2 + 1 ≤ (num : ℤ) ∧
      (num : ℤ) < (VH : ℤ) - ((VH : ℤ) - height).fdiv 2
  · have hpos : ((VH : ℤ) - height).fdiv 2 < (num : ℤ) ∧
        (num : ℤ) < (VH : ℤ) - ((VH : ℤ) - height).fdiv 2 := ⟨by omega, h.2⟩
    rw [if_pos h, rowWrite_getD_self _ _ _ _ hx, if_pos hpos]
  · have hneg : ¬ (((VH : ℤ) - height).fdiv 2 < (num : ℤ) ∧
        (num : ℤ) < (VH : ℤ) - ((VH : ℤ) - height).fdiv 2) := by
      intro hc
      exact h ⟨by omega, hc.2⟩
    rw [if_neg h, rowWrite_getD_self _ _ _ _ hx, if_neg hneg]

/-- C7: `draw_line` computes `offset = floor((VH - height) / 2)` and, at
column `x` of each existing row, writes the wall glyph (`'#'` plain, `'+'`
shadowed) exactly in the rows strictly between `offset` and `VH - offset`,
and a blank `' '` in every other row. -/
theorem draw_line_column (VH : ℕ) (x : ℕ) (height : ℤ) (shadow : Bool)
    (screen : List (List Char)) (num : ℕ)
    (hnum : num < screen.length) (hx : x < (screen.getD num []).length) :
    ((draw_line VH x height shadow screen).getD num []).getD x ' ' =
      (if ((VH : ℤ) - height).fdiv 2 < (num : ℤ) ∧
          (num : ℤ) < (VH : ℤ) - ((VH : ℤ) - height).fdiv 2
       then (if shadow then '+' else '#') else ' ') :=
  draw_line_column_aux VH x height shadow screen num hnum hx

/-- Witness for C7: a 4-row screen, height 2, column 0; row 2 lies strictly
between `offset = 1` and `VH - offset = 3` and receives the solid glyph. -/
theorem draw_line_column_witness :
    ((draw_line 4 0 2 false [['+'], ['+'], ['+'], ['+']]).getD 2 []).getD 0 ' ' = '#' := by
  have h := draw_line_column 4 0 2 false [['+'], ['+'], ['+'], ['+']] 2
    (by norm_num) (by norm_num)
  rw [h]
  with_unfolding_all rfl

/-- Helper: `draw_line` preserves the screen shape and the other columns. -/
theorem draw_line_frame_aux (VW VH : ℕ) (x : ℕ) (height : ℤ) (shadow : Bool)
    (screen : List (List Char))
    (hrows : ∀ row ∈ screen, row.length = VW) (hx : x < VW) :
    (draw_line VH x height shadow screen).length = screen.length ∧
    (∀ num, num < screen.length →
      ((draw_line VH x height shadow screen).getD num []).length = VW) ∧
    (∀ num j, num < screen.length → j ≠ x →
      ((draw_line VH x height shadow screen).getD num []).getD j ' ' =
        (screen.getD num []).getD j ' ') := by
  have hlenrow : ∀ num, num < screen.length → (screen.getD num []).length = VW := by
    intro num hnum
    have hget : screen.getD num [] = screen[num] := by
      rw [List.getD_eq_getElem?_getD, List.getElem?_eq_getElem hnum]
      rfl
    rw [hget]
    exact hrows _ (List.getElem_mem hnum)
  refine ⟨drawRows_length VH _ x shadow screen 0, ?_, ?_⟩
  · intro num hnum
    unfold draw_line
    rw [drawRows_getD VH _ x shadow screen 0 num hnum]
    have hxlen : x < (screen.getD num []).length := by rw [hlenrow num hnum]; exact hx
    split <;> rw [rowWrite_length _ _ _ hxlen] <;> exact hlenrow num hnum
  · intro num j hnum hj
    unfold draw_line
    rw [drawRows_getD VH _ x shadow screen 0 num hnum]
    have hxlen : x < (screen.getD num []).length := by rw [hlenrow num hnum]; exact hx
    split <;> exact rowWrite_getD_ne _ _ _ _ _ hxlen hj

/-- C10: for a column `x < VW` of a screen whose rows all have width `VW`,
`draw_line` preserves the number of rows and the width of every row, and
leaves every character in a column other than `x` unchanged. -/
theorem draw_line_frame (VW VH : ℕ) (x : ℕ) (height : ℤ) (shadow : Bool)
    (screen : List (List Char))
    (hrows : ∀ row ∈ screen, row.length = VW) (hx : x < VW) :
    (draw_line VH x height shadow screen).length = screen.length ∧
    (∀ num, num < screen.length →
      ((draw_line VH x height shadow screen).getD num []).length = VW) ∧
    (∀ num j, num < screen.length → j ≠ x →
      ((draw_line VH x height shadow screen).getD num []).getD j ' ' =
        (screen.getD num []).getD j ' ') :=
  draw_line_frame_aux VW VH x height shadow screen hrows hx

/-- Witness for C10: column 0 of a 2×2 screen; row count, row widths and the
character in column 1 are untouched. -/
theorem draw_line_frame_witness :
    (draw_line 2 0 1 true [['a', 'b'], ['c', 'd']]).length = 2 ∧
    ((draw_line 2 0 1 true [['a', 'b'], ['c', 'd']]).getD 0 []).getD 1 ' ' = 'b' := by
  have h := draw_line_frame 2 2 0 1 true [['a', 'b'], ['c', 'd']]
    (by intro row hrow; fin_cases hrow <;> rfl) (by norm_num)
  refine ⟨h.1, ?_⟩
  rw [h.2.2 0 1 (by norm_num) (by norm_num)]
  rfl

/-! ## The ray caster -/

/-- Python exceptions that `main.py` can raise: `ZeroDivisionError` from float
division by zero, and the `SystemExit` raised by `exit(0)` in the `q` branch
of `Game.update`. -/
inductive PyErr where
  | zeroDiv
  | sysExit
deriving DecidableEq

/-- Python float division: `a / b` raises `ZeroDivisionError` when `b == 0`
(floats have no infinity result for division by zero in Python). -/
def pyDiv (a b : ℚ) : Except PyErr ℚ :=
  if b = 0 then .error .zeroDiv else .ok (a / b)

/-- `Game.distance(a, b) = sqrt(a**2 + b**2)`. -/
def distance (m : MathModel) (a b : ℚ) : ℚ := m.sqrt (a ^ 2 + b ^ 2)

/-- The `for _ in range(256)` loop of `Game.horizontal_intersection`: check
the current point, stop on a wall, otherwise advance by `(dx, dy)`. -/
def hscan (px py dx dy : ℚ) (up : Bool) : ℕ → ℚ × ℚ → ℚ × ℚ
  | 0, p => p
  | fuel + 1, p =>
      let cx := p.1 + px
      let cy := if up then p.2 + py else p.2 + py - 1
      if point_in_wall cx cy then p
      else hscan px py dx dy up fuel (p.1 + dx, p.2 + dy)

/-- `Game.horizontal_intersection(angle)`.  The two divisions by
`math.tan(angle)` go through `pyDiv` and abort with `ZeroDivisionError` when
the tangent is exactly zero. -/
def horizontal_intersection (m : MathModel) (px py angle : ℚ) : Except PyErr ℚ := do
  let up := decide ((m.floorDivPi angle).emod 2 ≠ 0)
  let first_y := (if up then ((py.ceil : ℤ) : ℚ) else ((py.floor : ℤ) : ℚ)) - py
  let first_x ← pyDiv (-first_y) (m.tan angle)
  let dy : ℚ := if up then 1 else -1
  let dx ← pyDiv (-dy) (m.tan angle)
  let p := hscan px py dx dy up 256 (first_x, first_y)
  pure (distance m p.1 p.2)

/-- The `for _ in range(256)` loop of `Game.vertical_intersection`. -/
def vscan (px py dx dy : ℚ) (right : Bool) : ℕ → ℚ × ℚ → ℚ × ℚ
  | 0, p => p
  | fuel + 1, p =>
      let cx := if right then p.1 + px else p.1 + px - 1
      let cy := p.2 + py
      if point_in_wall cx cy then p
      else vscan px py dx dy right fuel (p.1 + dx, p.2 + dy)

/-- `Game.vertical_intersection(angle)`; it only multiplies by
`math.tan(angle)`, so it cannot raise. -/
def vertical_intersection (m : MathModel) (px py angle : ℚ) : ℚ :=
  let right := decide ((m.floorShiftDivPi angle).emod 2 ≠ 0)
  let first_x := (if right then ((px.ceil : ℤ) : ℚ) else ((px.floor : ℤ) : ℚ)) - px
  let first_y := -m.tan angle * first_x
  let dx : ℚ := if right then 1 else -1
  let dy := dx * -m.tan angle
  let p := vscan px py dx dy right 256 (first_x, first_y)
  distance m p.1 p.2

/-- C3 fails on the code: at a cast angle of exactly 0 (where
`math.tan(0.0) == 0.0` and `math.floor(0 / math.pi) = 0`), the division
`-first_y / math.tan(angle)` in `horizontal_intersection` raises
`ZeroDivisionError` instead of returning a distance — Python float division
has no infinity semantics.  Shown here for the start position `(3, 3)`. -/
theorem horizontal_intersection_crash (m : MathModel)
    (htan : m.tan 0 = 0) (hfloor : m.floorDivPi 0 = 0) :
    horizontal_intersection m 3 3 0 = .error .zeroDiv := by
  unfold horizontal_intersection
  rw [htan, hfloor]
  with_unfolding_all rfl

/-- Concrete instantiation of the math model for witnesses: `tan` is the
identity (so `tan 0 = 0` and `tan 1 = 1`), `cos` is constantly 1, `sqrt` is
the identity, and both floor-of-quotient functions are constantly 0. -/
def testModel : MathModel where
  pi := 27 / 5
  cos := fun _ => 1
  sin := fun _ => 1
  tan := fun q => q
  sqrt := fun q => q
  floorDivPi := fun _ => 0
  floorShiftDivPi := fun _ => 0

/-- Witness for C3's crash theorem at the concrete model. -/
theorem horizontal_intersection_crash_witness :
    testModel.tan 0 = 0 ∧ testModel.floorDivPi 0 = 0 ∧
    horizontal_intersection testModel 3 3 0 = .error .zeroDiv :=
  ⟨rfl, rfl, horizontal_intersection_crash testModel rfl rfl⟩

/-! ## The view projector `Game.get_view` -/

/-- `self.FOV = math.pi / 2.7`. -/
def FOV (m : MathModel) : ℚ := m.pi / (27 / 10)

/-- `self.HALF_FOV = self.FOV / 2`. -/
def HALF_FOV (m : MathModel) : ℚ := FOV m / 2

/-- `self.ANGLE_STEP = self.FOV / self.VW`. -/
def ANGLE_STEP (m : MathModel) (VW : ℕ) : ℚ := FOV m / VW

/-- One iteration of the `get_view` loop for column `idx`: the cast angle is
`starting_angle - idx * ANGLE_STEP` with
`starting_angle = player_angle + HALF_FOV`; the nearer of the two
intersection distances is kept (ties go to the vertical one, which also sets
the shadow flag), the projected height is `int(WALL_HEIGHT / (min_dist *
cos(angle - player_angle)))` (with `WALL_HEIGHT = VH`) clamped to `VH`. -/
def castColumn (m : MathModel) (px py pangle : ℚ) (VW VH : ℕ) (idx : ℕ) :
    Except PyErr (ℤ × Bool) := do
  let angle := pangle + HALF_FOV m - (idx : ℚ) * ANGLE_STEP m VW
  let h_dist ← horizontal_intersection m px py angle
  let v_dist := vertical_intersection m px py angle
  let mins := if h_dist < v_dist then (h_dist, false) else (v_dist, true)
  let q ← pyDiv (VH : ℚ) (mins.1 * m.cos (angle - pangle))
  let height := pyTrunc q
  let height := if (VH : ℤ) < height then (VH : ℤ) else height
  pure (height, mins.2)

/-- The `for idx in range(len(walls))` loop of `Game.get_view`, filling one
entry per column in ascending order of `idx`. -/
def viewColumns (m : MathModel) (px py pangle : ℚ) (VW VH : ℕ) :
    ℕ → ℕ → Except PyErr (List (ℤ × Bool))
  | _, 0 => .ok []
  | idx, n + 1 => do
      let w ← castColumn m px py pangle VW VH idx
      let rest ← viewColumns m px py pangle VW VH (idx + 1) n
      pure (w :: rest)

/-- `Game.get_view()`: one `(height, shadow)` pair per screen column. -/
def get_view (m : MathModel) (px py pangle : ℚ) (VW VH : ℕ) :
    Except PyErr (List (ℤ × Bool)) :=
  viewColumns m px py pangle VW VH 0 VW

theorem sel_eq_min {α : Type} [LinearOrder α] (a b : α) :
    (if a < b then a else b) = min a b := by
  rcases lt_trichotomy a b with h | h | h
  · rw [if_pos h, min_eq_left h.le]
  · rw [h, if_neg (lt_irrefl b), min_self]
  · rw [if_neg (not_lt_of_gt h), min_eq_right h.le]

theorem rat_floor_eq_floor (q : ℚ) : q.floor = ⌊q⌋ :=
  (Rat.floor_def' q).trans Rat.floor_def.symm

theorem pyTrunc_of_nonneg {q : ℚ} (h : 0 ≤ q) : pyTrunc q = ⌊q⌋ := by
  rw [pyTrunc, if_neg (not_lt_of_ge h), rat_floor_eq_floor]

theorem except_error_bind {α β : Type} (e : PyErr) (f : α → Except PyErr β) :
    (Except.error e >>= f) = Except.error e := rfl

theorem except_ok_bind {α β : Type} (a : α) (f : α → Except PyErr β) :
    (Except.ok a >>= f) = f a := rfl

theorem except_pure {α : Type} (a : α) : (pure a : Except PyErr α) = Except.ok a := rfl

theorem viewColumns_ok (m : MathModel) (px py pangle : ℚ) (VW VH : ℕ) :
    ∀ (n idx : ℕ) (ws : List (ℤ × Bool)),
      viewColumns m px py pangle VW VH idx n = .ok ws →
      ws.length = n ∧
      ∀ j, j < n → castColumn m px py pangle VW VH (idx + j) = .ok (ws.getD j (0, true)) := by
  intro n
  induction n with
  | zero =>
      intro idx ws h
      unfold viewColumns at h
      have hws : [] = ws := Except.ok.inj h
      subst hws
      exact ⟨rfl, fun j hj => absurd hj (Nat.not_lt_zero j)⟩
  | succ n ih =>
      intro idx ws h
      unfold viewColumns at h
      cases hw : castColumn m px py pangle VW VH idx with
      | error e =>
          rw [hw, except_error_bind] at h
          exact Except.noConfusion h
      | ok w =>
          rw [hw, except_ok_bind] at h
          cases hrest : viewColumns m px py pangle VW VH (idx + 1) n with
          | error e =>
              rw [hrest, except_error_bind] at h
              exact Except.noConfusion h
          | ok rest =>
              rw [hrest, except_ok_bind, except_pure] at h
              have hws : w :: rest = ws := Except.ok.inj h
              obtain ⟨hlen, hcols⟩ := ih (idx + 1) rest hrest
              subst hws
              refine ⟨by simp [hlen], ?_⟩
              intro j hj
              cases j with
              | zero => simpa using hw
              | succ k =>
                  have hk : k < n := Nat.lt_of_succ_lt_succ hj
                  have := hcols k hk
                  rw [show idx + (k + 1) = idx + 1 + k by omega]
                  simpa using this

/-- Shared characterisation of one successful `get_view` loop iteration: the
shadow flag is set exactly when the vertical intersection wins (ties
included), the distance fed to the projection division is
`min(h_dist, v_dist)`, and the height is the truncated quotient clamped to
`VH`. -/
theorem castColumn_ok_spec (m : MathModel) (px py pangle : ℚ) (VW VH : ℕ) (idx : ℕ)
    (h : ℤ) (sh : Bool) (hd : ℚ)
    (hok : castColumn m px py pangle VW VH idx = .ok (h, sh))
    (hh : horizontal_intersection m px py
      (pangle + HALF_FOV m - (idx : ℚ) * ANGLE_STEP m VW) = .ok hd) :
    (sh = true ↔ vertical_intersection m px py
      (pangle + HALF_FOV m - (idx : ℚ) * ANGLE_STEP m VW) ≤ hd) ∧
    ∃ q, pyDiv (VH : ℚ)
        (min hd (vertical_intersection m px py
          (pangle + HALF_FOV m - (idx : ℚ) * ANGLE_STEP m VW)) *
          m.cos (pangle + HALF_FOV m - (idx : ℚ) * ANGLE_STEP m VW - pangle)) = .ok q ∧
      h = min (VH : ℤ) (pyTrunc q) := by
  unfold castColumn at hok
  simp only [] at hok
  rw [hh, except_ok_bind] at hok
  set A := pangle + HALF_FOV m - (idx : ℚ) * ANGLE_STEP m VW with hA
  set v := vertical_intersection m px py A with hv
  by_cases hlt : hd < v
  · rw [if_pos hlt] at hok
    cases hq : pyDiv (VH : ℚ) ((hd, false).1 * m.cos (A - pangle)) with
    | error e =>
        rw [hq, except_error_bind] at hok
        exact Except.noConfusion hok
    | ok q =>
        rw [hq, except_ok_bind, except_pure] at hok
        obtain ⟨hh', hsh⟩ := Prod.mk.injEq .. ▸ Except.ok.inj hok
        refine ⟨?_, q, ?_, ?_⟩
        · rw [← hsh]
          exact iff_of_false Bool.false_ne_true (not_le_of_lt hlt)
        · rw [min_eq_left hlt.le]
          exact hq
        · rw [← hh', sel_eq_min]
  · rw [if_neg hlt] at hok
    cases hq : pyDiv (VH : ℚ) ((v, true).1 * m.cos (A - pangle)) with
    | error e =>
        rw [hq, except_error_bind] at hok
        exact Except.noConfusion hok
    | ok q =>
        rw [hq, except_ok_bind, except_pure] at hok
        obtain ⟨hh', hsh⟩ := Prod.mk.injEq .. ▸ Except.ok.inj hok
        refine ⟨?_, q, ?_, ?_⟩
        · rw [← hsh]
          exact iff_of_true rfl (le_of_not_lt hlt)
        · rw [min_eq_right (le_of_not_lt hlt)]
          exact hq
        · rw [← hh', sel_eq_min]

/-- C5: for every column, the distance used for projection is
`min(h_dist, v_dist)` of the two intersection distances, and the shadow flag
is true exactly when the vertical intersection is the winner. -/
theorem selection_rule (m : MathModel) (px py pangle : ℚ) (VW VH : ℕ) (idx : ℕ)
    (h : ℤ) (sh : Bool) (hd : ℚ)
    (hok : castColumn m px py pangle VW VH idx = .ok (h, sh))
    (hh : horizontal_intersection m px py
      (pangle + HALF_FOV m - (idx : ℚ) * ANGLE_STEP m VW) = .ok hd) :
    (sh = true ↔ vertical_intersection m px py
      (pangle + HALF_FOV m - (idx : ℚ) * ANGLE_STEP m VW) ≤ hd) ∧
    ∃ q, pyDiv (VH : ℚ)
        (min hd (vertical_intersection m px py
          (pangle + HALF_FOV m - (idx : ℚ) * ANGLE_STEP m VW)) *
          m.cos (pangle + HALF_FOV m - (idx : ℚ) * ANGLE_STEP m VW - pangle)) = .ok q ∧
      h = min (VH : ℤ) (pyTrunc q) :=
  castColumn_ok_spec m px py pangle VW VH idx h sh hd hok hh

/-- Witness for C5 at the concrete model, start `(3, 3)`, viewport `1 × 8`,
column 0: the vertical intersection (distance 2) beats the horizontal one
(distance 8), so the column is shadowed. -/
theorem selection_rule_witness :
    vertical_intersection testModel 3 3
      (0 + HALF_FOV testModel - (0 : ℚ) * ANGLE_STEP testModel 1) ≤ 8 :=
  ((selection_rule testModel 3 3 0 1 8 0 4 true 8
    (by with_unfolding_all rfl) (by with_unfolding_all rfl)).1).mp rfl

/-- C4: a successful `get_view` returns one `(height, shadowed)` pair per
screen column; the column `idx` is cast at angle
`player_angle + HALF_FOV - idx * ANGLE_STEP` (`ANGLE_STEP = FOV / VW`), and
whenever the projection divisor `min_dist * cos(angle - player_angle)` is
positive, the returned height is `floor(WALL_HEIGHT / (min_dist * cos(angle -
player_angle)))` (with `WALL_HEIGHT = VH`) clamped to at most `VH`. -/
theorem get_view_spec (m : MathModel) (px py pangle : ℚ) (VW VH : ℕ)
    (ws : List (ℤ × Bool)) (hok : get_view m px py pangle VW VH = .ok ws) :
    ws.length = VW ∧
    ∀ idx, idx < VW → ∀ hd,
      horizontal_intersection m px py
        (pangle + HALF_FOV m - (idx : ℚ) * ANGLE_STEP m VW) = .ok hd →
      0 < min hd (vertical_intersection m px py
          (pangle + HALF_FOV m - (idx : ℚ) * ANGLE_STEP m VW)) *
          m.cos (pangle + HALF_FOV m - (idx : ℚ) * ANGLE_STEP m VW - pangle) →
      (ws.getD idx (0, true)).1 =
        min (VH : ℤ) ⌊(VH : ℚ) / (min hd (vertical_intersection m px py
          (pangle + HALF_FOV m - (idx : ℚ) * ANGLE_STEP m VW)) *
          m.cos (pangle + HALF_FOV m - (idx : ℚ) * ANGLE_STEP m VW - pangle))⌋ := by
  obtain ⟨hlen, hcols⟩ := viewColumns_ok m px py pangle VW VH VW 0 ws hok
  refine ⟨hlen, ?_⟩
  intro idx hidx hd hh hpos
  have hcast := hcols idx hidx
  rw [Nat.zero_add] at hcast
  obtain ⟨-, q, hq, hheight⟩ := castColumn_ok_spec m px py pangle VW VH idx
    (ws.getD idx (0, true)).1 (ws.getD idx (0, true)).2 hd (by rw [← hcast]) hh
  have hdvd : min hd (vertical_intersection m px py
      (pangle + HALF_FOV m - (idx : ℚ) * ANGLE_STEP m VW)) *
      m.cos (pangle + HALF_FOV m - (idx : ℚ) * ANGLE_STEP m VW - pangle) ≠ 0 :=
    ne_of_gt hpos
  rw [pyDiv, if_neg hdvd] at hq
  have hqval : q = (VH : ℚ) / (min hd (vertical_intersection m px py
      (pangle + HALF_FOV m - (idx : ℚ) * ANGLE_STEP m VW)) *
      m.cos (pangle + HALF_FOV m - (idx : ℚ) * ANGLE_STEP m VW - pangle)) :=
    (Except.ok.inj hq).symm
  have hqnn : 0 ≤ q := by
    rw [hqval]
    exact div_nonneg (by positivity) hpos.le
  rw [hheight, pyTrunc_of_nonneg hqnn, hqval]

/-- Witness for C4 at the concrete model, start `(3, 3)`, viewport `1 × 8`:
the single column has height `min 8 ⌊8 / 2⌋ = 4`. -/
theorem get_view_spec_witness :
    ([((4 : ℤ), true)].getD 0 (0, true)).1 =
      min (8 : ℤ) ⌊(8 : ℚ) / (min 8 (vertical_intersection testModel 3 3
        (0 + HALF_FOV testModel - (0 : ℚ) * ANGLE_STEP testModel 1)) *
        testModel.cos (0 + HALF_FOV testModel - (0 : ℚ) * ANGLE_STEP testModel 1 - 0))⌋ :=
  (get_view_spec testModel 3 3 0 1 8 [(4, true)] (by with_unfolding_all rfl)).2
    0 (by norm_num) 8 (by with_unfolding_all rfl)
    (of_decide_eq_true (by with_unfolding_all rfl))

/-! ## The full `Game.update` and the screen buffer -/

/-- The mutable `Game` state touched by `update`: the player fields and the
screen buffer `self.screen`. -/
structure GState where
  player : PState
  screen : List (List Char)
deriving DecidableEq

/-- The `for x, wall_height in enumerate(self.get_view())` loop at the end of
`Game.update`: draw column `x` for each `(height, shadow)` pair in order. -/
def drawAll (VH : ℕ) : ℕ → List (ℤ × Bool) → List (List Char) → List (List Char)
  | _, [], scr => scr
  | x, w :: ws, scr => drawAll VH (x + 1) ws (draw_line VH x w.1 w.2 scr)

/-- `Game.update(key)`: the `q` branch raises `SystemExit` (before any state
change); otherwise the player moves with positional rollback and every view
column is redrawn into the screen buffer. -/
def update (m : MathModel) (VW VH : ℕ) (key : Char) (gs : GState) :
    Except PyErr GState :=
  if key = 'q' then .error .sysExit
  else do
    let p := movePlayer m key gs.player
    let ws ← get_view m p.player_x p.player_y p.player_angle VW VH
    pure ⟨p, drawAll VH 0 ws gs.screen⟩

/-- Helper: what a successful `update` did. -/
theorem update_ok_elim (m : MathModel) (VW VH : ℕ) (key : Char) (gs gs' : GState)
    (h : update m VW VH key gs = .ok gs') :
    gs'.player = movePlayer m key gs.player ∧
    ∃ ws, get_view m (movePlayer m key gs.player).player_x
        (movePlayer m key gs.player).player_y
        (movePlayer m key gs.player).player_angle VW VH = .ok ws ∧
      gs'.screen = drawAll VH 0 ws gs.screen := by
  unfold update at h
  by_cases hq : key = 'q'
  · rw [if_pos hq] at h
    exact Except.noConfusion h
  · rw [if_neg hq] at h
    simp only [] at h
    cases hv : get_view m (movePlayer m key gs.player).player_x
        (movePlayer m key gs.player).player_y
        (movePlayer m key gs.player).player_angle VW VH with
    | error e =>
        rw [hv, except_error_bind] at h
        exact Except.noConfusion h
    | ok ws =>
        rw [hv, except_ok_bind, except_pure] at h
        have hgs := Except.ok.inj h
        refine ⟨?_, ws, rfl, ?_⟩ <;> rw [← hgs]

/-- C2: starting from any state whose committed position is not inside a
wall, every successful sequence of `update` calls (in particular any sequence
of `w`/`s` moves) leaves the committed position outside every wall: a
colliding positional move is rolled back to the exact pre-move position. -/
theorem update_collision_invariant (m : MathModel) (VW VH : ℕ) (keys : List Char)
    (gs gs' : GState)
    (hs : point_in_wall gs.player.player_x gs.player.player_y = false)
    (hrun : keys.foldlM (fun t k => update m VW VH k t) gs = .ok gs') :
    point_in_wall gs'.player.player_x gs'.player.player_y = false := by
  induction keys generalizing gs with
  | nil =>
      rw [List.foldlM_nil, except_pure] at hrun
      rw [← Except.ok.inj hrun]
      exact hs
  | cons k ks ih =>
      rw [List.foldlM_cons] at hrun
      cases hu : update m VW VH k gs with
      | error e =>
          rw [hu, except_error_bind] at hrun
          exact Except.noConfusion hrun
      | ok g1 =>
          rw [hu, except_ok_bind] at hrun
          have hp := (update_ok_elim m VW VH k gs g1 hu).1
          have hfree : point_in_wall g1.player.player_x g1.player.player_y = false := by
            rw [hp]
            exact movePlayer_no_wall m k gs.player hs
          exact ih g1 hfree hrun

/-- Witness for C2: one `w` step at the concrete model from `(3, 3)` facing
angle 0 moves to `(3.08, 2.92)`, which is outside every wall. -/
theorem update_collision_invariant_witness :
    point_in_wall (77/25 : ℚ) (73/25) = false :=
  update_collision_invariant testModel 1 8 ['w']
    ⟨⟨3, 3, 0⟩, [['+'], ['+'], ['+'], ['+'], ['+'], ['+'], ['+'], ['+']]⟩
    ⟨⟨77/25, 73/25, 0⟩, [[' '], [' '], [' '], ['+'], ['+'], ['+'], [' '], [' ']]⟩
    (by with_unfolding_all rfl) (by with_unfolding_all rfl)

/-- Helper: an unrecognized key leaves the player state unchanged (the
dispatch falls through and the collision rollback restores the very same
position). -/
theorem movePlayer_other (m : MathModel) (key : Char) (s : PState)
    (hw : key ≠ 'w') (hs : key ≠ 's') (hd : key ≠ 'd') (ha : key ≠ 'a') :
    movePlayer m key s = s := by
  unfold movePlayer dispatch
  rw [if_neg hw, if_neg hs, if_neg hd, if_neg ha]
  simp only []
  split
  · cases s
    rfl
  · rfl

/-- Helper: per-row fixed width, membership form vs indexed form. -/
theorem rows_len_iff (A : List (List Char)) (RL : ℕ) :
    (∀ row ∈ A, row.length = RL) ↔
    (∀ i, i < A.length → (A.getD i []).length = RL) := by
  constructor
  · intro h i hi
    have hget : A.getD i [] = A[i] := by
      rw [List.getD_eq_getElem?_getD, List.getElem?_eq_getElem hi]
      rfl
    rw [hget]
    exact h _ (List.getElem_mem hi)
  · intro h row hrow
    obtain ⟨i, hi, heq⟩ := List.mem_iff_getElem.mp hrow
    have hget : A.getD i [] = A[i] := by
      rw [List.getD_eq_getElem?_getD, List.getElem?_eq_getElem hi]
      rfl
    rw [← heq, ← hget]
    exact h i hi

/-- Helper: rows that agree below their common length are equal. -/
theorem rows_eq_of_getD (r1 r2 : List Char) (hlen : r1.length = r2.length)
    (h : ∀ j, j < r1.length → r1.getD j ' ' = r2.getD j ' ') : r1 = r2 := by
  apply List.ext_getElem hlen
  intro i h1 h2
  have hj := h i h1
  rw [List.getD_eq_getElem?_getD, List.getElem?_eq_getElem h1,
    List.getD_eq_getElem?_getD, List.getElem?_eq_getElem h2] at hj
  exact hj

/-- Helper: screens whose rows agree pointwise are equal. -/
theorem screens_eq_of_getD (A B : List (List Char)) (hlen : A.length = B.length)
    (h : ∀ i, i < A.length → A.getD i [] = B.getD i []) : A = B := by
  apply List.ext_getElem hlen
  intro i h1 h2
  have hi := h i h1
  rw [List.getD_eq_getElem?_getD, List.getElem?_eq_getElem h1,
    List.getD_eq_getElem?_getD, List.getElem?_eq_getElem h2] at hi
  exact hi

/-- Helper: `drawAll` preserves the number of rows and their fixed width as
long as every column drawn is inside the width. -/
theorem drawAll_shape (VH RL : ℕ) :
    ∀ (ws : List (ℤ × Bool)) (x : ℕ) (S : List (List Char)),
      (∀ row ∈ S, row.length = RL) → x + ws.length ≤ RL →
      (drawAll VH x ws S).length = S.length ∧
      (∀ row ∈ drawAll VH x ws S, row.length = RL) := by
  intro ws
  induction ws with
  | nil =>
      intro x S hS _
      exact ⟨rfl, hS⟩
  | cons w ws ih =>
      intro x S hS hx
      rw [List.length_cons] at hx
      have hxRL : x < RL := by omega
      have hframe := draw_line_frame_aux RL VH x w.1 w.2 S hS hxRL
      have hS' : ∀ row ∈ draw_line VH x w.1 w.2 S, row.length = RL := by
        rw [rows_len_iff]
        intro i hi
        rw [hframe.1] at hi
        exact hframe.2.1 i hi
      have := ih (x + 1) (draw_line VH x w.1 w.2 S) hS' (by omega)
      exact ⟨by rw [show drawAll VH x (w :: ws) S =
          drawAll VH (x + 1) ws (draw_line VH x w.1 w.2 S) from rfl, this.1, hframe.1],
        this.2⟩

/-- Helper: the outcome of `drawAll` over columns `x, …, x + ws.length - 1`
does not depend on the previous contents of the columns it overwrites: if two
screens of the same shape (same row count, all rows of width
`RL = x + ws.length`) agree on the columns below `x`, drawing the remaining
columns makes them equal. -/
theorem drawAll_agree (VH RL : ℕ) :
    ∀ (ws : List (ℤ × Bool)) (x : ℕ) (A B : List (List Char)),
      A.length = B.length →
      (∀ row ∈ A, row.length = RL) →
      (∀ row ∈ B, row.length = RL) →
      (∀ i j, i < A.length → j < x →
        (A.getD i []).getD j ' ' = (B.getD i []).getD j ' ') →
      x + ws.length = RL →
      drawAll VH x ws A = drawAll VH x ws B := by
  intro ws
  induction ws with
  | nil =>
      intro x A B hlen hA hB hagree hx
      rw [List.length_nil] at hx
      apply screens_eq_of_getD A B hlen
      intro i hi
      have hAi := (rows_len_iff A RL).mp hA i hi
      have hBi := (rows_len_iff B RL).mp hB i (hlen ▸ hi)
      apply rows_eq_of_getD _ _ (by rw [hAi, hBi])
      intro j hj
      rw [hAi] at hj
      exact hagree i j hi (by omega)
  | cons w ws ih =>
      intro x A B hlen hA hB hagree hx
      rw [List.length_cons] at hx
      have hxRL : x < RL := by omega
      have hfA := draw_line_frame_aux RL VH x w.1 w.2 A hA hxRL
      have hfB := draw_line_frame_aux RL VH x w.1 w.2 B hB hxRL
      show drawAll VH (x + 1) ws (draw_line VH x w.1 w.2 A) =
        drawAll VH (x + 1) ws (draw_line VH x w.1 w.2 B)
      apply ih (x + 1)
      · rw [hfA.1, hfB.1, hlen]
      · rw [rows_len_iff]
        intro i hi
        rw [hfA.1] at hi
        exact hfA.2.1 i hi
      · rw [rows_len_iff]
        intro i hi
        rw [hfB.1] at hi
        exact hfB.2.1 i hi
      · intro i j hi hj
        rw [hfA.1] at hi
        have hiB : i < B.length := hlen ▸ hi
        rcases Nat.lt_or_ge j x with hjx | hjx
        · rw [hfA.2.2 i j hi (Nat.ne_of_lt hjx), hfB.2.2 i j hiB (Nat.ne_of_lt hjx)]
          exact hagree i j hi hjx
        · have hjeq : j = x := by omega
          subst hjeq
          have hxA : j < (A.getD i []).length := by
            rw [(rows_len_iff A RL).mp hA i hi]
            exact hxRL
          have hxB : j < (B.getD i []).length := by
            rw [(rows_len_iff B RL).mp hB i hiB]
            exact hxRL
          rw [draw_line_column_aux VH j w.1 w.2 A i hi hxA,
            draw_line_column_aux VH j w.1 w.2 B i hiB hxB]
      · omega

/-- C8: if the previous iteration successfully rendered the current state and
screen, then an `update` with any key other than `w`, `s`, `a`, `d`, `q`
leaves the player state unchanged and produces a screen buffer identical to
the previous frame: re-rendering an unchanged state is idempotent. -/
theorem rerender_idempotent (m : MathModel) (VW VH : ℕ) (key key0 : Char)
    (gs0 gs gs' : GState)
    (hkey : key ∉ (['w', 's', 'a', 'd', 'q'] : List Char))
    (hnw : point_in_wall gs.player.player_x gs.player.player_y = false)
    (hdims : ∀ row ∈ gs0.screen, row.length = VW)
    (hprev : update m VW VH key0 gs0 = .ok gs)
    (hnext : update m VW VH key gs = .ok gs') :
    gs'.player = gs.player ∧ gs'.screen = gs.screen := by
  simp only [List.mem_cons, List.mem_singleton] at hkey
  push_neg at hkey
  obtain ⟨hkw, hks, hka, hkd, hkq⟩ := hkey
  have hmv : movePlayer m key gs.player = gs.player :=
    movePlayer_other m key gs.player hkw hks hkd hka
  obtain ⟨hp0, ws, hws, hscr⟩ := update_ok_elim m VW VH key0 gs0 gs hprev
  obtain ⟨hp1, ws', hws', hscr'⟩ := update_ok_elim m VW VH key gs gs' hnext
  rw [hmv] at hp1 hws'
  rw [← hp0] at hws
  have hwseq : ws' = ws := Except.ok.inj (hws'.symm.trans hws)
  subst hwseq
  refine ⟨hp1, ?_⟩
  have hwlen : ws'.length = VW :=
    (viewColumns_ok m gs.player.player_x gs.player.player_y gs.player.player_angle
      VW VH VW 0 ws' hws).1
  have hshape := drawAll_shape VH VW ws' 0 gs0.screen hdims (by omega)
  rw [hscr', hscr]
  apply drawAll_agree VH VW ws' 0
  · exact (drawAll_shape VH VW ws' 0 gs0.screen hdims (by omega)).1
  · exact hshape.2
  · exact hdims
  · intro i j _ hj
    exact absurd hj (Nat.not_lt_zero j)
  · omega

/-- Witness for C8: from state `(3, 3, 0)` with an already-rendered screen
(the single column has height 4, shadowed), the unrecognized key `n` leaves
both the player and the screen unchanged. -/
theorem rerender_idempotent_witness :
    (⟨⟨3, 3, 0⟩, [[' '], [' '], [' '], ['+'], ['+'], ['+'], [' '], [' ']]⟩ : GState).player =
      (⟨⟨3, 3, 0⟩, [[' '], [' '], [' '], ['+'], ['+'], ['+'], [' '], [' ']]⟩ : GState).player ∧
    (⟨⟨3, 3, 0⟩, [[' '], [' '], [' '], ['+'], ['+'], ['+'], [' '], [' ']]⟩ : GState).screen =
      (⟨⟨3, 3, 0⟩, [[' '], [' '], [' '], ['+'], ['+'], ['+'], [' '], [' ']]⟩ : GState).screen :=
  rerender_idempotent testModel 1 8 'n' 'x'
    ⟨⟨3, 3, 0⟩, [['+'], ['+'], ['+'], ['+'], ['+'], ['+'], ['+'], ['+']]⟩
    ⟨⟨3, 3, 0⟩, [[' '], [' '], [' '], ['+'], ['+'], ['+'], [' '], [' ']]⟩
    ⟨⟨3, 3, 0⟩, [[' '], [' '], [' '], ['+'], ['+'], ['+'], [' '], [' ']]⟩
    (by decide)
    (by with_unfolding_all rfl)
    (by decide)
    (by with_unfolding_all rfl)
    (by with_unfolding_all rfl)

end TermRay
